import Mathlib

/-!
Shallow embedding of the Shakespeare-RAG ingestion pipeline
(the document segmentation core: line classifiers, segmenter state
machine, chunk splitter, cleaner/filter) and proofs about it.

Strings are modelled as `List Char` (JavaScript strings restricted to
the code points the corpus uses; `String.prototype.trim` and the `\s`
regex class are modelled by `isWs` over the ASCII whitespace chars).
JavaScript regular expressions appearing in the source are compiled to
executable Lean functions with the same matching semantics, including
the source's literal double backslashes (`\\s` in a regex literal
matches a literal backslash followed by `s`-repetitions).
-/

namespace BardRag

/-- Whitespace test used to model `String.prototype.trim` and the `\s`
regex class on the ASCII range. -/
def isWs (c : Char) : Bool :=
  c == ' ' || c == '\t' || c == '\n' || c == '\r' || c == '\x0b' || c == '\x0c'

/-- Sentence-ending punctuation used by the splitter's regex `(?<=[.!?])\s+`. -/
def isPunct (c : Char) : Bool :=
  c == '.' || c == '!' || c == '?'

/-- Decimal digit test, modelling the regex class `[0-9]`. -/
def isDigitB (c : Char) : Bool :=
  '0' ≤ c && c ≤ '9'

/-- Uppercase ASCII letter test, modelling the regex class `[A-Z]`. -/
def isUpperB (c : Char) : Bool :=
  'A' ≤ c && c ≤ 'Z'

/-- Alphanumeric test, modelling the regex class `[a-zA-Z0-9]`. -/
def isAlnumB (c : Char) : Bool :=
  isUpperB c || ('a' ≤ c && c ≤ 'z') || isDigitB c

/-- The backslash character (used by the buggy regexes of the source,
whose `\\s` matches a literal backslash). -/
def bslash : Char := Char.ofNat 92

/-- The apostrophe character. -/
def apos : Char := Char.ofNat 39

/-- Drop trailing whitespace (the right half of `trim`). -/
def dropTrailWs (l : List Char) : List Char :=
  (l.reverse.dropWhile isWs).reverse

/-- Model of JavaScript `String.prototype.trim`. -/
def jsTrim (l : List Char) : List Char :=
  dropTrailWs (l.dropWhile isWs)

/-- Fail-fast list-prefix test (`String.prototype.startsWith`). -/
def prefB : List Char → List Char → Bool
  | [], _ => true
  | _ :: _, [] => false
  | a :: as, b :: bs => a == b && prefB as bs

/-- Substring test: `containsSub s l` is `l.includes(s)` in JavaScript. -/
def containsSub (s : List Char) : List Char → Bool
  | [] => s.isEmpty
  | c :: r => prefB s (c :: r) || containsSub s r

/-- `lastIsPunct acc` tests whether the most recently consumed character
(head of the reversed accumulator) is sentence-ending punctuation. -/
def lastIsPunct : List Char → Bool
  | [] => false
  | c :: _ => isPunct c

/-- Worker for the sentence split `text.split(/(?<=[.!?])\s+/)`.
The accumulator is kept reversed; `skip = true` means we are inside a
separator (a whitespace run preceded by punctuation) and are consuming
the rest of the run. -/
def sentGo : Bool → List Char → List Char → List (List Char)
  | _, acc, [] => [acc.reverse]
  | true, acc, c :: rest =>
      if isWs c then sentGo true acc rest
      else sentGo false (c :: acc) rest
  | false, acc, c :: rest =>
      if isWs c && lastIsPunct acc then
        acc.reverse :: sentGo true [] rest
      else
        sentGo false (c :: acc) rest

/-- Model of `text.split(/(?<=[.!?])\s+/)`: split at maximal whitespace
runs immediately preceded by `.`, `!` or `?`. -/
def sentSplit (l : List Char) : List (List Char) :=
  sentGo false [] l

/-- Worker for `text.split('\n')`. -/
def splitLinesGo : List Char → List Char → List (List Char)
  | acc, [] => [acc.reverse]
  | acc, c :: r =>
      if c == '\n' then acc.reverse :: splitLinesGo [] r
      else splitLinesGo (c :: acc) r

/-- Model of `text.split('\n')`. -/
def splitLines (l : List Char) : List (List Char) :=
  splitLinesGo [] l

/-- A raw chunk as built by the segmenter (`{id, work, speaker, text}`);
`speaker` is `none` for JavaScript `null`. -/
structure Chunk where
  id : Nat
  work : List Char
  speaker : Option (List Char)
  text : List Char
deriving Repr, DecidableEq

/-- JavaScript truthiness of the `speaker` field (`null` and the empty
string are falsy). -/
def isTruthy : Option (List Char) → Bool
  | none => false
  | some s => !s.isEmpty

/-- The decimal digits of `n`, as written by a JS template literal. -/
def natChars (n : Nat) : List Char :=
  (Nat.toDigits 10 n)

/-- The speaker suffix `" (Part N)"` added by `splitLargeChunk`. -/
def partSfx (n : Nat) : List Char :=
  " (Part ".data ++ natChars n ++ ")".data

/-- `chunk.speaker ? chunk.speaker + " (Part N)" : chunk.speaker`. -/
def sealSpeaker (sp : Option (List Char)) (n : Nat) : Option (List Char) :=
  if isTruthy sp then sp.map (fun s => s ++ partSfx n) else sp

/-- The loop of `splitLargeChunk`: greedy accumulation of sentences into
parts of at most 800 characters, sealing the current part when adding
the next sentence would overflow. -/
def splitGo (base : Chunk) : List (List Char) → List Chunk → List Char → Nat → List Chunk
  | [], acc, cur, pi =>
      if (jsTrim cur).isEmpty then acc
      else
        acc ++ [{ base with
                  text := jsTrim cur
                  speaker := if 1 < pi then sealSpeaker base.speaker pi else base.speaker }]
  | s :: rest, acc, cur, pi =>
      if 800 < cur.length + s.length && 0 < cur.length then
        splitGo base rest
          (acc ++ [{ base with text := jsTrim cur, speaker := sealSpeaker base.speaker pi }])
          (s ++ [' ']) (pi + 1)
      else
        splitGo base rest acc (cur ++ s ++ [' ']) pi

/-- Model of `splitLargeChunk(chunk, maxSize = 800)`. -/
def splitLargeChunk (c : Chunk) : List Chunk :=
  if c.text.length ≤ 800 then [c]
  else splitGo c (sentSplit c.text) [] [] 1

/-- The fixed catalog of work titles (`shakespeareWorks` in the source;
apostrophes are spliced in as `apos`). -/
def shakespeareWorks : List (List Char) :=
  [ "THE SONNETS".data
  , "ALL".data ++ apos :: "S WELL THAT ENDS WELL".data
  , "THE TRAGEDY OF ANTONY AND CLEOPATRA".data
  , "AS YOU LIKE IT".data
  , "THE COMEDY OF ERRORS".data
  , "THE TRAGEDY OF CORIOLANUS".data
  , "CYMBELINE".data
  , "THE TRAGEDY OF HAMLET, PRINCE OF DENMARK".data
  , "THE FIRST PART OF KING HENRY THE FOURTH".data
  , "THE SECOND PART OF KING HENRY THE FOURTH".data
  , "THE LIFE OF KING HENRY THE FIFTH".data
  , "THE FIRST PART OF HENRY THE SIXTH".data
  , "THE SECOND PART OF KING HENRY THE SIXTH".data
  , "THE THIRD PART OF KING HENRY THE SIXTH".data
  , "KING HENRY THE EIGHTH".data
  , "THE LIFE AND DEATH OF KING JOHN".data
  , "THE TRAGEDY OF JULIUS CAESAR".data
  , "THE TRAGEDY OF KING LEAR".data
  , "LOVE".data ++ apos :: "S LABOUR".data ++ apos :: "S LOST".data
  , "THE TRAGEDY OF MACBETH".data
  , "MEASURE FOR MEASURE".data
  , "THE MERCHANT OF VENICE".data
  , "THE MERRY WIVES OF WINDSOR".data
  , "A MIDSUMMER NIGHT".data ++ apos :: "S DREAM".data
  , "MUCH ADO ABOUT NOTHING".data
  , "THE TRAGEDY OF OTHELLO, THE MOOR OF VENICE".data
  , "PERICLES, PRINCE OF TYRE".data
  , "KING RICHARD THE SECOND".data
  , "KING RICHARD THE THIRD".data
  , "THE TRAGEDY OF ROMEO AND JULIET".data
  , "THE TAMING OF THE SHREW".data
  , "THE TEMPEST".data
  , "THE LIFE OF TIMON OF ATHENS".data
  , "THE TRAGEDY OF TITUS ANDRONICUS".data
  , "TROILUS AND CRESSIDA".data
  , "TWELFTH NIGHT; OR, WHAT YOU WILL".data
  , "THE TWO GENTLEMEN OF VERONA".data
  , "THE TWO NOBLE KINSMEN".data
  , "THE WINTER".data ++ apos :: "S TALE".data
  , "A LOVER".data ++ apos :: "S COMPLAINT".data
  , "THE PASSIONATE PILGRIM".data
  , "THE PHOENIX AND THE TURTLE".data
  , "THE RAPE OF LUCRECE".data
  , "VENUS AND ADONIS".data ]

/-- `shakespeareWorks.find(work => trimmedLine === work ||
trimmedLine.includes(work))`. -/
def findWork (t : List Char) : Option (List Char) :=
  shakespeareWorks.find? (fun w => t == w || containsSub w t)

/-- The character class `[A-Z\s,'.-]` of the speaker regex. -/
def spkClass (c : Char) : Bool :=
  isUpperB c || isWs c || c == ',' || c == apos || c == '.' || c == '-'

/-- Matching of the anchored lazy regex
`^([A-Z][A-Z\s,'.-]+?)\.?\s*$` against an already-trimmed line,
returning capture group 1. Since the input is trimmed, `\s*` can only
match the empty string, so the remainder after the group is `""` or
`"."`; laziness picks the shorter group when the line ends in `.`. -/
def speakerMatch (t : List Char) : Option (List Char) :=
  match t with
  | [] => none
  | c :: rest =>
    if isUpperB c then
      if t.getLast? == some '.' && decide (3 ≤ t.length) && t.dropLast.tail.all spkClass then
        some t.dropLast
      else if decide (2 ≤ t.length) && rest.all spkClass then
        some t
      else none
    else none

/-- The fixed denylist of structural markers (`nonSpeakers`). -/
def nonSpeakers : List (List Char) :=
  [ "ACT".data, "SCENE".data, "EPILOGUE".data, "PROLOGUE".data, "CHORUS".data
  , "CONTENTS".data, "THE END".data, "FINIS".data, "DRAMATIS PERSONAE".data
  , "PERSONS REPRESENTED".data, "INDUCTION".data, "ARGUMENT".data, "ENTER".data
  , "EXIT".data, "EXEUNT".data, "ALARUM".data, "FLOURISH".data, "SENNET".data
  , "HAUTBOYS".data, "TRUMPETS".data, "DRUMS".data, "SCENE I".data
  , "SCENE II".data, "SCENE III".data, "SCENE IV".data, "SCENE V".data
  , "ACT I".data, "ACT II".data, "ACT III".data, "ACT IV".data, "ACT V".data ]

/-- The alternation `^(ACT|SCENE|EPILOGUE|PROLOGUE|ENTER|EXIT|EXEUNT)`
used inside `isSpeakerLine`. -/
def structMarkers : List (List Char) :=
  [ "ACT".data, "SCENE".data, "EPILOGUE".data, "PROLOGUE".data
  , "ENTER".data, "EXIT".data, "EXEUNT".data ]

/-- The regex `^[IVX]+$` ("not just roman numerals") as a test on one
character. -/
def ivxB (c : Char) : Bool :=
  c == 'I' || c == 'V' || c == 'X'

/-- The `isValidSpeaker` conjunction of rejection rules. -/
def isValidSpeaker (s : List Char) : Bool :=
  decide (1 < s.length) && decide (s.length < 50) &&
  !(nonSpeakers.any (fun ns => prefB ns s)) &&
  !(structMarkers.any (fun p => prefB p s)) &&
  !(!s.isEmpty && s.all isDigitB) &&
  !(containsSub "SCENE".data s) &&
  !(containsSub "Contents".data s) &&
  !(!s.isEmpty && s.all ivxB)

/-- `speaker.replace(/\.$/, '')`: drop one trailing period. -/
def stripDot (s : List Char) : List Char :=
  if s.getLast? == some '.' then s.dropLast else s

/-- Model of `isSpeakerLine`: regex match, validity filter, and removal
of the trailing period. -/
def isSpeakerLine (line : List Char) : Option (List Char) :=
  match speakerMatch (jsTrim line) with
  | none => none
  | some g =>
    let s := jsTrim g
    if isValidSpeaker s then some (stripDot s) else none

/-- Model of `isSonnetNumber`, faithful to the source's regex
`/^\\s*([0-9]+)\\s*$/`, in which `\\` matches one literal backslash and
`s*` matches a run of letter `s`; the capture group is the digit run. -/
def isSonnetNumber (line : List Char) : Option (List Char) :=
  match jsTrim line with
  | [] => none
  | c :: rest =>
    if c == bslash then
      let r1 := rest.dropWhile (fun d => d == 's')
      let ds := r1.takeWhile isDigitB
      match r1.dropWhile isDigitB with
      | c2 :: r3 =>
          if !ds.isEmpty && c2 == bslash && r3.all (fun d => d == 's') then some ds
          else none
      | [] => none
    else none

/-- Maximal non-whitespace runs (the tokens of `split(/\s+/)` on a
trimmed string). -/
def wordsGo : List Char → List Char → List (List Char)
  | acc, [] => if acc.isEmpty then [] else [acc.reverse]
  | acc, c :: r =>
      if isWs c then
        if acc.isEmpty then wordsGo [] r else acc.reverse :: wordsGo [] r
      else wordsGo (c :: acc) r

/-- Model of `countWords`: trim, tokenize on whitespace, count tokens
containing at least one alphanumeric character. -/
def countWords (l : List Char) : Nat :=
  ((wordsGo [] (jsTrim l)).filter (fun w => !w.isEmpty && w.any isAlnumB)).length

/-- The mutable state of `processShakespeareText`'s loop. -/
structure PState where
  chunks : List Chunk
  currentWork : List Char
  currentSpeaker : Option (List Char)
  currentChunk : List Char
  chunkId : Nat
  inSonnets : Bool
  sonnetNumber : Option (List Char)
  sonnetText : List Char
deriving Repr, DecidableEq

/-- The initial loop state. -/
def initState : PState :=
  ⟨[], "UNKNOWN".data, none, [], 0, false, none, []⟩

/-- The label `` `SONNET ${sonnetNumber}` `` (a `null` number renders as
the string `"null"`, as in a JS template literal). -/
def sonnetLabel : Option (List Char) → List Char
  | none => "SONNET null".data
  | some d => "SONNET ".data ++ d

/-- `saveCurrentChunk`: push the split of the accumulated dialogue chunk
(if its trimmed text is non-empty) and advance the pre-filter id. -/
def saveCurrentChunk (σ : PState) : PState :=
  if (jsTrim σ.currentChunk).isEmpty then σ
  else
    { σ with
      chunks := σ.chunks ++
        splitLargeChunk ⟨σ.chunkId, σ.currentWork, σ.currentSpeaker, jsTrim σ.currentChunk⟩
      chunkId := σ.chunkId + 1 }

/-- Append the in-progress sonnet as a chunk. -/
def pushSonnet (σ : PState) : PState :=
  { σ with
    chunks := σ.chunks ++
      [⟨σ.chunkId, σ.currentWork, some (sonnetLabel σ.sonnetNumber), jsTrim σ.sonnetText⟩]
    chunkId := σ.chunkId + 1 }

/-- Flush the in-progress sonnet when in the sonnets section and its
trimmed text is non-empty (the guard used at title lines and at EOF). -/
def flushSonnetIf (σ : PState) : PState :=
  if σ.inSonnets && !(jsTrim σ.sonnetText).isEmpty then pushSonnet σ else σ

/-- `^(ACT|SCENE|EPILOGUE|PROLOGUE|ENTER|EXIT|EXEUNT|ALARUM|FLOURISH)`:
the stage-direction / scene-marker prefixes skipped by the segmenter. -/
def stagePrefixB (t : List Char) : Bool :=
  [ "ACT".data, "SCENE".data, "EPILOGUE".data, "PROLOGUE".data, "ENTER".data
  , "EXIT".data, "EXEUNT".data, "ALARUM".data, "FLOURISH".data
  ].any (fun p => prefB p t)

/-- `^\[.*\]$` (no `/s` flag: `.` excludes line terminators): a fully
bracketed stage direction. -/
def bracketB (t : List Char) : Bool :=
  match t with
  | [] => false
  | c :: rest =>
      c == '[' && rest.getLast? == some ']' &&
      rest.dropLast.all (fun d => !(d == '\n' || d == '\r'))

/-- One iteration of the `processShakespeareText` line loop. -/
def stepLine (σ : PState) (line : List Char) : PState :=
  if (jsTrim line).isEmpty && σ.currentChunk.isEmpty then σ
  else
    match findWork (jsTrim line) with
    | some w =>
      { flushSonnetIf (saveCurrentChunk σ) with
        currentWork := w
        inSonnets := w == "THE SONNETS".data
        currentSpeaker := none
        currentChunk := []
        sonnetNumber := none
        sonnetText := [] }
    | none =>
      if σ.inSonnets then
        match isSonnetNumber (jsTrim line) with
        | some m =>
          { (if !(jsTrim σ.sonnetText).isEmpty then pushSonnet σ else σ) with
            sonnetNumber := some m
            sonnetText := [] }
        | none =>
          if isTruthy σ.sonnetNumber && !(jsTrim line).isEmpty then
            { σ with sonnetText := σ.sonnetText ++ line ++ ['\n'] }
          else σ
      else
        match isSpeakerLine (jsTrim line) with
        | some spk =>
          { saveCurrentChunk σ with currentSpeaker := some spk, currentChunk := [] }
        | none =>
          if stagePrefixB (jsTrim line) then σ
          else if bracketB (jsTrim line) then σ
          else if isTruthy σ.currentSpeaker && !(jsTrim line).isEmpty then
            { σ with currentChunk := σ.currentChunk ++ line ++ ['\n'] }
          else σ

/-- Fold the line loop over a list of lines. -/
def runLoop (lines : List (List Char)) : PState :=
  lines.foldl stepLine initState

/-- The end-of-input flushes (final chunk, then final sonnet). -/
def finishP (σ : PState) : PState :=
  flushSonnetIf (saveCurrentChunk σ)

/-- Model of `processShakespeareText`: split into lines, run the loop,
flush, and return the raw (pre-filter) chunk list. -/
def processShakespeareText (text : List Char) : List Chunk :=
  (finishP (runLoop (splitLines text))).chunks

/-- A final chunk after `cleanChunks` (renumbered id plus derived
metrics). -/
structure CleanChunk where
  id : Nat
  work : List Char
  speaker : Option (List Char)
  text : List Char
  textLength : Nat
  wordCount : Nat
deriving Repr, DecidableEq

/-- The source's buggy stage-direction filter `/^\\s*\\[.*\\]\\s*$/`:
backslash, `s`-run, backslash, one character among `.`, `*`, backslash,
backslash, `s`-run. -/
def stageBuggy (t : List Char) : Bool :=
  match t with
  | c :: r =>
    c == bslash &&
      (match r.dropWhile (fun d => d == 's') with
       | c1 :: c2 :: c3 :: r3 =>
           c1 == bslash && (c2 == '.' || c2 == '*' || c2 == bslash) &&
           c3 == bslash && r3.all (fun d => d == 's')
       | _ => false)
  | [] => false

/-- The character class `[\\.,;:!?-]` of the buggy punctuation filter. -/
def punctClassB (c : Char) : Bool :=
  c == bslash || c == '.' || c == ',' || c == ';' || c == ':' ||
  c == '!' || c == '?' || c == '-'

/-- The source's buggy punctuation filter `/^\\s*[\\.,;:!?-]*\\s*$/`:
backslash, `s`-run, class characters, backslash, `s`-run. -/
def punctBuggy (t : List Char) : Bool :=
  match t with
  | c :: r =>
    c == bslash &&
      (let r1 := r.dropWhile (fun d => d == 's')
       match (r1.reverse.dropWhile (fun d => d == 's')) with
       | c2 :: midRev => c2 == bslash && midRev.all punctClassB
       | [] => false)
  | [] => false

/-- The character class `[0-9IVXivx]` of the buggy numeral filter. -/
def numClassB (c : Char) : Bool :=
  isDigitB c || c == 'I' || c == 'V' || c == 'X' || c == 'i' || c == 'v' || c == 'x'

/-- The source's buggy numeral filter `/^\\s*[0-9IVXivx]+\\s*$/`:
backslash, `s`-run, one or more class characters, backslash, `s`-run. -/
def numBuggy (t : List Char) : Bool :=
  match t with
  | c :: r =>
    c == bslash &&
      (let r1 := r.dropWhile (fun d => d == 's')
       let ds := r1.takeWhile numClassB
       match r1.dropWhile numClassB with
       | c2 :: r3 => !ds.isEmpty && c2 == bslash && r3.all (fun d => d == 's')
       | [] => false)
  | [] => false

/-- `^(ACT|SCENE|EPILOGUE|PROLOGUE)` (the scene-header filter). -/
def sceneHeadB (t : List Char) : Bool :=
  [ "ACT".data, "SCENE".data, "EPILOGUE".data, "PROLOGUE".data
  ].any (fun p => prefB p t)

/-- The filter predicate of `cleanChunks`. -/
def keepChunk (c : Chunk) : Bool :=
  !(decide (c.text.length < 10)) && !(stageBuggy c.text) &&
  !(sceneHeadB c.text) && !(punctBuggy c.text) && !(numBuggy c.text)

/-- Renumber survivors sequentially from `i` and attach derived
metrics. -/
def renumberFrom : Nat → List Chunk → List CleanChunk
  | _, [] => []
  | i, c :: r =>
      ⟨i, c.work, c.speaker, c.text, c.text.length, countWords c.text⟩ :: renumberFrom (i + 1) r

/-- Model of `cleanChunks`: filter, then renumber with ids `0..n-1`. -/
def cleanChunks (cs : List Chunk) : List CleanChunk :=
  renumberFrom 0 (cs.filter keepChunk)

/-! ### Shared structural lemmas about the splitter and the cleaner -/

/-- Every chunk produced by the splitter loop is either carried over
from the accumulator or inherits the base chunk's `id` and `work`. -/
theorem splitGo_mem (base : Chunk) (sents : List (List Char)) :
    ∀ acc cur pi p, p ∈ splitGo base sents acc cur pi →
      p ∈ acc ∨ (p.id = base.id ∧ p.work = base.work) := by
  induction sents with
  | nil =>
    intro acc cur pi p hp
    simp only [splitGo] at hp
    split at hp
    · exact Or.inl hp
    · rcases List.mem_append.1 hp with h | h
      · exact Or.inl h
      · right
        rcases List.mem_singleton.1 h with rfl
        exact ⟨rfl, rfl⟩
  | cons s rest ih =>
    intro acc cur pi p hp
    simp only [splitGo] at hp
    split at hp
    · rcases ih _ _ _ _ hp with h | h
      · rcases List.mem_append.1 h with h1 | h1
        · exact Or.inl h1
        · right
          rcases List.mem_singleton.1 h1 with rfl
          exact ⟨rfl, rfl⟩
      · exact Or.inr h
    · exact ih _ _ _ _ hp

/-- Every part returned by `splitLargeChunk` inherits the source chunk's
pre-filter `id` and its `work`. -/
theorem splitLargeChunk_mem (c p : Chunk) (hp : p ∈ splitLargeChunk c) :
    p.id = c.id ∧ p.work = c.work := by
  unfold splitLargeChunk at hp
  split at hp
  · rcases List.mem_singleton.1 hp with rfl
    exact ⟨rfl, rfl⟩
  · rcases splitGo_mem c _ _ _ _ _ hp with h | h
    · simp at h
    · exact h

/-- The ids assigned by `renumberFrom i` are `i, i+1, …`. -/
theorem renumberFrom_map_id (l : List Chunk) :
    ∀ i, (renumberFrom i l).map CleanChunk.id = List.range' i l.length := by
  induction l with
  | nil => intro i; rfl
  | cons c r ih =>
    intro i
    simp [renumberFrom, ih, List.range'_succ]

/-- `renumberFrom` preserves the surviving chunks' texts in order. -/
theorem renumberFrom_map_text (l : List Chunk) :
    ∀ i, (renumberFrom i l).map CleanChunk.text = l.map Chunk.text := by
  induction l with
  | nil => intro i; rfl
  | cons c r ih => intro i; simp [renumberFrom, ih]

/-- `renumberFrom` preserves length. -/
theorem renumberFrom_length (l : List Chunk) :
    ∀ i, (renumberFrom i l).length = l.length := by
  induction l with
  | nil => intro i; rfl
  | cons c r ih => intro i; simp [renumberFrom, ih]

/-! ### Concrete inputs used as evidence -/

/-- A 450-character sentence (449 letters `a`, then a period). -/
def sentA : List Char := List.replicate 449 'a' ++ ['.']

/-- A 450-character sentence (449 letters `b`, then a period). -/
def sentB : List Char := List.replicate 449 'b' ++ ['.']

/-- An oversized 901-character two-sentence text. -/
def bigText : List Char := sentA ++ ' ' :: sentB

/-- An oversized chunk with a non-null speaker. -/
def bigChunk : Chunk := ⟨0, "W".data, some "HAMLET".data, bigText⟩

/-- The sonnet scenario input of the spec: the line `THE SONNETS`,
then the line `18`, then the line `Shall I compare thee...`. -/
def sonnetInput : List Char := "THE SONNETS\n18\nShall I compare thee...".data

/-- A speaker cue followed by an oversized single-line speech. -/
def dupIdInput : List Char := "HAMLET.\n".data ++ bigText

/-! ### C1 -/

/-- C1 (code bug evidence): on the input whose lines are `THE SONNETS`,
`18`, `Shall I compare thee...`, the pipeline `processShakespeareText`
emits no chunk at all — not the single
`{work: "THE SONNETS", speaker: "SONNET 18", text: "Shall I compare thee..."}`
chunk the claim requires. The cause is `isSonnetNumber`'s regex
`/^\\s*([0-9]+)\\s*$/`, which demands literal backslash characters and
therefore never recognizes the line `18` as a sonnet number. -/
theorem claim1_sonnet_scenario_emits_no_chunks :
    processShakespeareText sonnetInput = [] := by decide

/-! ### C2 -/

/-- C2 (code bug evidence): the line `18` trims to a string consisting
purely of decimal digits, yet `isSonnetNumber` returns no match for it;
instead the function matches strings built from literal backslashes and
`s`-runs around the digits, such as `\s18\s`. -/
theorem claim2_isSonnetNumber_rejects_digit_line :
    "18".data.all isDigitB = true ∧
    isSonnetNumber "18".data = none ∧
    isSonnetNumber (bslash :: 's' :: "18".data ++ [bslash, 's']) = some "18".data := by
  decide

/-! ### C5 -/

/-- A chunk whose text is entirely a single bracketed stage direction. -/
def stageDirChunk : Chunk := ⟨0, "W".data, none, "[Exeunt omnes, attended.]".data⟩

/-- A chunk whose text is entirely Roman-numeral characters. -/
def romanChunk : Chunk := ⟨1, "W".data, none, "XIXVIXIVIX".data⟩

/-- A chunk whose text is entirely punctuation. -/
def punctChunk : Chunk := ⟨2, "W".data, none, "!!!???...,,;;".data⟩

/-- C5 (code bug evidence): `cleanChunks` keeps a fully bracketed
stage-direction chunk, a purely Roman-numeral chunk and a purely
punctuation chunk (each of length ≥ 10), because the three filters
`/^\\s*\\[.*\\]\\s*$/`, `/^\\s*[\\.,;:!?-]*\\s*$/` and
`/^\\s*[0-9IVXivx]+\\s*$/` all demand literal backslash characters and
so never match ordinary text; the claim requires all three chunks to be
dropped. -/
theorem claim5_cleanChunks_keeps_degenerate_chunks :
    bracketB stageDirChunk.text = true ∧
    romanChunk.text.all (fun c => c == 'X' || c == 'I' || c == 'V') = true ∧
    punctChunk.text.all (fun c => c == '!' || c == '?' || c == '.' || c == ',' || c == ';') = true ∧
    (cleanChunks [stageDirChunk, romanChunk, punctChunk]).map CleanChunk.text =
      [stageDirChunk.text, romanChunk.text, punctChunk.text] := by
  decide

/-! ### C6 -/

/-- C6: for every input chunk list, the chunks surviving `cleanChunks`
carry ids forming exactly the contiguous zero-based sequence `0..n-1`
(`n` the number of survivors), assigned in the survivors' original
relative order (their texts are the filtered texts in order), with all
pre-filter ids discarded. -/
theorem claim6_clean_ids_contiguous (cs : List Chunk) :
    (cleanChunks cs).map CleanChunk.id = List.range ((cleanChunks cs).length) ∧
    (cleanChunks cs).map CleanChunk.text = (cs.filter keepChunk).map Chunk.text := by
  constructor
  · rw [cleanChunks, renumberFrom_map_id, renumberFrom_length, List.range_eq_range']
  · exact renumberFrom_map_text _ _

/-! ### C10 -/

set_option maxRecDepth 40000 in
/-- C10: every part produced by `splitLargeChunk` carries the same
pre-filter `id` as its source chunk; consequently the raw output of
`processShakespeareText` can repeat ids (witnessed on an input whose
single speech splits in two), and id uniqueness holds for the output of
`cleanChunks`, which reassigns `0..n-1`. -/
theorem claim10_prefilter_ids :
    (∀ c p, p ∈ splitLargeChunk c → p.id = c.id) ∧
    ¬ ((processShakespeareText dupIdInput).map Chunk.id).Nodup ∧
    (∀ cs : List Chunk, ((cleanChunks cs).map CleanChunk.id).Nodup) := by
  refine ⟨fun c p hp => (splitLargeChunk_mem c p hp).1, ?_, fun cs => ?_⟩
  · decide
  · rw [cleanChunks, renumberFrom_map_id]
    exact List.nodup_range' _ _

/-- The first part of splitting `bigChunk`. -/
def bigPartOne : Chunk := ⟨0, "W".data, some ("HAMLET (Part 1)".data), sentA⟩

set_option maxRecDepth 40000 in
/-- Witness for C10: the theorem applied to the concrete oversized chunk
`bigChunk` and its first part. -/
theorem claim10_prefilter_ids_witness :
    bigPartOne ∈ splitLargeChunk bigChunk ∧ bigPartOne.id = bigChunk.id :=
  ⟨by decide, claim10_prefilter_ids.1 bigChunk bigPartOne (by decide)⟩

/-! ### C3 -/

set_option maxRecDepth 40000 in
/-- C3 counterexample: splitting the oversized chunk `bigChunk` (non-null
speaker `HAMLET`, text length 901) yields two parts whose speakers are
`HAMLET (Part 1)` and `HAMLET (Part 2)` — the first part does NOT carry
the bare speaker label, contrary to the claim. -/
theorem claim3_first_part_not_bare :
    800 < bigChunk.text.length ∧
    bigChunk.speaker = some "HAMLET".data ∧
    (splitLargeChunk bigChunk).map Chunk.speaker =
      [some ("HAMLET (Part 1)".data), some ("HAMLET (Part 2)".data)] ∧
    ("HAMLET (Part 1)".data ≠ "HAMLET".data) := by
  decide

/-! ### C8 -/

/-- C8 counterexample: the line `LI` consists purely of Roman numerals,
yet `isSpeakerLine` classifies it as the speaker `LI` — the code's
rejection rule `^[IVX]+$` covers only the numeral letters I, V, X. -/
theorem claim8_roman_speaker_counterexample :
    (∀ c ∈ "LI".data, c ∈ ['I', 'V', 'X', 'L', 'C', 'D', 'M']) ∧
    isSpeakerLine "LI".data = some ("LI".data) := by
  decide

/-- A character that is `I`, `V` or `X` is an uppercase speaker-class
character, is not whitespace, and is not a period. -/
theorem ivx_props (c : Char) (h : ivxB c = true) :
    spkClass c = true ∧ isUpperB c = true ∧ isWs c = false ∧ (c == '.') = false := by
  have : (c = 'I' ∨ c = 'V') ∨ c = 'X' := by simpa [ivxB] using h
  rcases this with (rfl | rfl) | rfl <;> decide

/-- Trimming a string with no whitespace characters is the identity. -/
theorem jsTrim_eq_self (l : List Char) (h : ∀ c ∈ l, isWs c = false) : jsTrim l = l := by
  have h1 : l.dropWhile isWs = l := by
    cases l with
    | nil => rfl
    | cons c r =>
      rw [List.dropWhile_cons_of_neg]
      simp [h c (List.mem_cons_self c r)]
  unfold jsTrim dropTrailWs
  rw [h1]
  show List.rdropWhile isWs l = l
  rw [List.rdropWhile_eq_self_iff]
  intro hl
  simp [h _ (List.getLast_mem hl)]

/-- C8 amended: every line whose trimmed content consists purely of the
Roman-numeral characters `I`, `V`, `X` is never classified as a speaker
cue by `isSpeakerLine`. (The original claim, quantifying over all Roman
numerals, fails on numerals containing `L`, `C`, `D` or `M`.) -/
theorem claim8_ivx_never_speaker (line : List Char)
    (h : (jsTrim line).all ivxB = true) : isSpeakerLine line = none := by
  unfold isSpeakerLine
  cases ht : jsTrim line with
  | nil => simp [speakerMatch]
  | cons c rest =>
    rw [ht] at h
    have hall : ∀ d ∈ c :: rest, ivxB d = true := by
      intro d hd; exact List.all_eq_true.1 h d hd
    have hc := ivx_props c (hall c (List.mem_cons_self c rest))
    have hlast : ((c :: rest).getLast? == some '.') = false := by
      have hne : c :: rest ≠ [] := by simp
      rw [List.getLast?_eq_getLast _ hne]
      have := (ivx_props _ (hall _ (List.getLast_mem hne))).2.2.2
      simpa using this
    simp only [speakerMatch, hc.2.1, if_true, hlast, Bool.false_and, if_false]
    cases rest with
    | nil => simp
    | cons c2 r2 =>
      have hclass : (c2 :: r2).all spkClass = true := by
        rw [List.all_eq_true]
        intro d hd
        exact (ivx_props d (hall d (List.mem_cons_of_mem c hd))).1
      have hlen : decide (2 ≤ (c :: c2 :: r2).length) = true := by
        simp
      rw [hclass, hlen]
      simp only [Bool.and_true, if_true]
      have hnw : ∀ d ∈ c :: c2 :: r2, isWs d = false := by
        intro d hd; exact (ivx_props d (hall d hd)).2.2.1
      have htr : jsTrim (c :: c2 :: r2) = c :: c2 :: r2 := jsTrim_eq_self _ hnw
      have hvalid : isValidSpeaker (c :: c2 :: r2) = false := by
        unfold isValidSpeaker
        have : ((c :: c2 :: r2).isEmpty = false) := by simp
        rw [h]
        simp
      simp [htr, hvalid]

/-- Witness for C8: the theorem applied to the concrete line `XIV`. -/
theorem claim8_ivx_never_speaker_witness :
    (jsTrim "XIV".data).all ivxB = true ∧ isSpeakerLine "XIV".data = none :=
  ⟨by decide, claim8_ivx_never_speaker "XIV".data (by decide)⟩

/-! ### C9 -/

/-- C9: in dialogue mode (`inSonnets = false`) with an active speaker
and a non-empty chunk accumulator, the line `ACT I` leaves the entire
segmenter state unchanged: no chunk is emitted, and the speaker and
accumulated text are untouched. -/
theorem claim9_act_line_inert (σ : PState) (s : List Char)
    (hson : σ.inSonnets = false) (hspk : σ.currentSpeaker = some s)
    (hs : s ≠ []) (hcc : σ.currentChunk ≠ []) :
    stepLine σ "ACT I".data = σ := by
  have h1 : jsTrim "ACT I".data = "ACT I".data := by decide
  have h2 : findWork "ACT I".data = none := by decide
  have h3 : isSpeakerLine "ACT I".data = none := by decide
  have h4 : stagePrefixB "ACT I".data = true := by decide
  have h5 : ("ACT I".data).isEmpty = false := by decide
  unfold stepLine
  simp only [h1, h2, h3, h4, h5, hson, Bool.false_and, Bool.false_eq_true, if_false, if_true]

/-- A dialogue-mode state with active speaker `HAMLET` and a non-empty
accumulator. -/
def actState : PState :=
  ⟨[], "UNKNOWN".data, some "HAMLET".data, "To be.\n".data, 1, false, none, []⟩

/-- Witness for C9: the theorem applied to the concrete state
`actState`. -/
theorem claim9_act_line_inert_witness :
    actState.inSonnets = false ∧ actState.currentSpeaker = some "HAMLET".data ∧
    "HAMLET".data ≠ [] ∧ actState.currentChunk ≠ [] ∧
    stepLine actState "ACT I".data = actState :=
  ⟨rfl, rfl, by decide, by decide,
    claim9_act_line_inert actState "HAMLET".data rfl rfl (by decide) (by decide)⟩

/-! ### C3, amended -/

/-- `acc` is part-labeled: its `i`-th element carries the speaker label
for part `i + 1`. -/
def speakerLabeled (base : Chunk) (acc : List Chunk) : Prop :=
  ∀ i (h : i < acc.length), acc[i].speaker = sealSpeaker base.speaker (i + 1)

/-- Appending the next sealed part preserves part-labeling. -/
theorem speakerLabeled_append (base : Chunk) (acc : List Chunk) (x : Chunk)
    (hacc : speakerLabeled base acc)
    (hx : x.speaker = sealSpeaker base.speaker (acc.length + 1)) :
    speakerLabeled base (acc ++ [x]) := by
  intro i h
  rcases Nat.lt_or_ge i acc.length with hi | hi
  · rw [List.getElem_append_left hi]
    exact hacc i hi
  · have hieq : i = acc.length := by
      simp only [List.length_append, List.length_singleton] at h
      omega
    subst hieq
    rw [List.getElem_append_right hi]
    simpa using hx

/-- The splitter loop either labels every emitted part positionally
(part `i` carries label `i + 1`) or returns a single part with the bare
base speaker. -/
theorem splitGo_speaker (base : Chunk) (sents : List (List Char)) :
    ∀ acc cur pi, pi = acc.length + 1 → speakerLabeled base acc →
      speakerLabeled base (splitGo base sents acc cur pi) ∨
      (∃ t, splitGo base sents acc cur pi = [{ base with text := t }]) := by
  induction sents with
  | nil =>
    intro acc cur pi hpi hacc
    simp only [splitGo]
    split
    · exact Or.inl hacc
    · rcases acc with _ | ⟨a, acc'⟩
      · right
        refine ⟨jsTrim cur, ?_⟩
        subst hpi
        norm_num

      · left
        subst hpi
        refine speakerLabeled_append base _ _ hacc ?_
        simp only [List.length_cons]
        rw [if_pos (by omega)]
  | cons s rest ih =>
    intro acc cur pi hpi hacc
    simp only [splitGo]
    split
    · refine ih _ _ _ ?_ ?_
      · simp [hpi]
      · refine speakerLabeled_append base _ _ hacc ?_
        rw [hpi]
    · exact ih _ _ _ hpi hacc

/-- C3 amended: when an oversized chunk with a truthy speaker is split,
every part inherits the source `work`; part `i` (0-based) at position 1
or later carries the speaker suffixed `" (Part i+1)"`, and whenever the
split produces at least two parts the first part carries the suffix
`" (Part 1)"` — not the bare speaker label the original claim states. -/
theorem claim3_part_labels (c : Chunk) (s : List Char)
    (hsp : c.speaker = some s) (hne : s ≠ []) (hlen : 800 < c.text.length) :
    (∀ i (h : i < (splitLargeChunk c).length), (splitLargeChunk c)[i].work = c.work) ∧
    (∀ i (h : i < (splitLargeChunk c).length), 1 ≤ i →
        (splitLargeChunk c)[i].speaker = some (s ++ partSfx (i + 1))) ∧
    (2 ≤ (splitLargeChunk c).length →
        ∀ (h : 0 < (splitLargeChunk c).length),
          (splitLargeChunk c)[0].speaker = some (s ++ partSfx 1)) := by
  have hseal : ∀ n, sealSpeaker c.speaker n = some (s ++ partSfx n) := by
    intro n
    simp [sealSpeaker, isTruthy, hsp, hne]
  have hrw : splitGo c (sentSplit c.text) [] [] 1 = splitLargeChunk c := by
    unfold splitLargeChunk
    rw [if_neg (by omega)]
  have hmain := splitGo_speaker c (sentSplit c.text) [] [] 1 rfl (by intro i h; simp at h)
  rw [hrw] at hmain
  refine ⟨fun i h => (splitLargeChunk_mem c _ (List.getElem_mem h)).2, ?_, ?_⟩
  · intro i h h1
    rcases hmain with hl | ⟨t, ht⟩
    · rw [hl i h, hseal]
    · rw [ht] at h
      simp at h
      omega
  · intro h2 h0
    rcases hmain with hl | ⟨t, ht⟩
    · rw [hl 0 h0, hseal]
    · rw [ht] at h2
      simp at h2
set_option maxRecDepth 40000 in
/-- Witness for the amended C3: the theorem applied to the concrete
oversized chunk `bigChunk`, whose split has two parts. -/
theorem claim3_part_labels_witness :
    bigChunk.speaker = some "HAMLET".data ∧ "HAMLET".data ≠ [] ∧
    800 < bigChunk.text.length ∧
    (2 ≤ (splitLargeChunk bigChunk).length →
      ∀ (h : 0 < (splitLargeChunk bigChunk).length),
        (splitLargeChunk bigChunk)[0].speaker = some ("HAMLET".data ++ partSfx 1)) :=
  ⟨rfl, by decide, by decide,
    (claim3_part_labels bigChunk "HAMLET".data rfl (by decide) (by decide)).2.2⟩

/-! ### C7 -/

/-- `saveCurrentChunk` keeps the current work. -/
@[simp] theorem saveCurrentChunk_currentWork (σ : PState) :
    (saveCurrentChunk σ).currentWork = σ.currentWork := by
  unfold saveCurrentChunk
  split <;> rfl

/-- `saveCurrentChunk` keeps the sonnets flag. -/
@[simp] theorem saveCurrentChunk_inSonnets (σ : PState) :
    (saveCurrentChunk σ).inSonnets = σ.inSonnets := by
  unfold saveCurrentChunk
  split <;> rfl

/-- `saveCurrentChunk` keeps the sonnet accumulator. -/
@[simp] theorem saveCurrentChunk_sonnetText (σ : PState) :
    (saveCurrentChunk σ).sonnetText = σ.sonnetText := by
  unfold saveCurrentChunk
  split <;> rfl

/-- `pushSonnet` keeps the current work. -/
@[simp] theorem pushSonnet_currentWork (σ : PState) :
    (pushSonnet σ).currentWork = σ.currentWork := rfl

/-- `flushSonnetIf` keeps the current work. -/
@[simp] theorem flushSonnetIf_currentWork (σ : PState) :
    (flushSonnetIf σ).currentWork = σ.currentWork := by
  unfold flushSonnetIf
  split <;> rfl

/-- The chunks appended by `saveCurrentChunk` all carry the state's
current work. -/
theorem saveCurrentChunk_chunks (σ : PState) :
    ∃ Δ, (saveCurrentChunk σ).chunks = σ.chunks ++ Δ ∧
      ∀ c ∈ Δ, c.work = σ.currentWork := by
  unfold saveCurrentChunk
  split
  · exact ⟨[], by simp, by simp⟩
  · refine ⟨_, rfl, fun c hc => ?_⟩
    exact (splitLargeChunk_mem _ c hc).2

/-- The chunk appended by `flushSonnetIf` carries the state's current
work. -/
theorem flushSonnetIf_chunks (σ : PState) :
    ∃ Δ, (flushSonnetIf σ).chunks = σ.chunks ++ Δ ∧
      ∀ c ∈ Δ, c.work = σ.currentWork := by
  unfold flushSonnetIf pushSonnet
  split
  · exact ⟨_, rfl, by intro c hc; simp at hc; rw [hc]⟩
  · exact ⟨[], by simp, by simp⟩

/-- One loop step only appends chunks, and every appended chunk carries
the pre-step current work. -/
theorem stepLine_chunks (σ : PState) (line : List Char) :
    ∃ Δ, (stepLine σ line).chunks = σ.chunks ++ Δ ∧
      ∀ c ∈ Δ, c.work = σ.currentWork := by
  unfold stepLine
  split
  · exact ⟨[], by simp, by simp⟩
  · split
    · obtain ⟨Δ1, hΔ1, hw1⟩ := saveCurrentChunk_chunks σ
      obtain ⟨Δ2, hΔ2, hw2⟩ := flushSonnetIf_chunks (saveCurrentChunk σ)
      refine ⟨Δ1 ++ Δ2, ?_, ?_⟩
      · show (flushSonnetIf (saveCurrentChunk σ)).chunks = _
        rw [hΔ2, hΔ1, List.append_assoc]
      · intro c hc
        rcases List.mem_append.1 hc with h | h
        · exact hw1 c h
        · rw [hw2 c h, saveCurrentChunk_currentWork]
    · split
      · split
        · split
          · exact ⟨_, rfl, by intro c hc; simp at hc; rw [hc]⟩
          · exact ⟨[], by simp, by simp⟩
        · split
          · exact ⟨[], by simp, by simp⟩
          · exact ⟨[], by simp, by simp⟩
      · split
        · obtain ⟨Δ1, hΔ1, hw1⟩ := saveCurrentChunk_chunks σ
          exact ⟨Δ1, hΔ1, hw1⟩
        · split
          · exact ⟨[], by simp, by simp⟩
          · split
            · exact ⟨[], by simp, by simp⟩
            · split
              · exact ⟨[], by simp, by simp⟩
              · exact ⟨[], by simp, by simp⟩

/-- The empty line matches no work title. -/
theorem findWork_nil : findWork [] = none := by decide

/-- One loop step updates the current work exactly when the trimmed
line is recognized as a work title. -/
theorem stepLine_work (σ : PState) (line : List Char) :
    (stepLine σ line).currentWork = (findWork (jsTrim line)).getD σ.currentWork := by
  unfold stepLine
  split
  · rename_i h
    have hnil : jsTrim line = [] := by
      rcases Bool.and_eq_true_iff.1 h with ⟨h1, _⟩
      exact List.isEmpty_iff.1 h1
    rw [hnil, findWork_nil]
    rfl
  · split
    · rename_i w hw
      rw [hw]
      rfl
    · rename_i hw
      rw [hw]
      split
      · split
        · simp only [Option.getD_none]
          split <;> rfl
        · split <;> rfl
      · split
        · simp
        · split
          · rfl
          · split
            · rfl
            · split <;> rfl

/-- The work title in effect after scanning `lines`: the catalog entry
recognized on the nearest work-title line, or `UNKNOWN` if none. -/
def nearestWork (lines : List (List Char)) : List Char :=
  lines.foldl (fun w l => (findWork (jsTrim l)).getD w) "UNKNOWN".data

/-- Chunks emitted while processing 0-based line `i`. -/
def chunksAt (lines : List (List Char)) (i : Nat) : List Chunk :=
  ((runLoop (lines.take (i + 1))).chunks).drop ((runLoop (lines.take i)).chunks).length

/-- Chunks emitted by the end-of-input flushes. -/
def eofChunks (lines : List (List Char)) : List Chunk :=
  ((finishP (runLoop lines)).chunks).drop ((runLoop lines).chunks).length

/-- The loop's `currentWork` tracks the nearest recognized title over
any processed prefix. -/
theorem foldl_work (lines : List (List Char)) :
    ∀ σ : PState, (lines.foldl stepLine σ).currentWork =
      lines.foldl (fun w l => (findWork (jsTrim l)).getD w) σ.currentWork := by
  induction lines with
  | nil => intro σ; rfl
  | cons l rest ih =>
    intro σ
    rw [List.foldl_cons, List.foldl_cons, ih, stepLine_work]

/-- `runLoop`'s current work is the nearest recognized title. -/
theorem runLoop_work (lines : List (List Char)) :
    (runLoop lines).currentWork = nearestWork lines :=
  foldl_work lines initState

/-- Unrolling one step of `runLoop` over a prefix. -/
theorem runLoop_take_succ (lines : List (List Char)) (i : Nat) (h : i < lines.length) :
    runLoop (lines.take (i + 1)) = stepLine (runLoop (lines.take i)) lines[i] := by
  rw [runLoop, runLoop, List.take_succ, List.foldl_append]
  rw [List.getElem?_eq_getElem h]
  rfl

/-- The end-of-input flushes only append chunks, each carrying the
final current work. -/
theorem finishP_chunks (σ : PState) :
    ∃ Δ, (finishP σ).chunks = σ.chunks ++ Δ ∧
      ∀ c ∈ Δ, c.work = σ.currentWork := by
  unfold finishP
  obtain ⟨Δ1, hΔ1, hw1⟩ := saveCurrentChunk_chunks σ
  obtain ⟨Δ2, hΔ2, hw2⟩ := flushSonnetIf_chunks (saveCurrentChunk σ)
  refine ⟨Δ1 ++ Δ2, ?_, ?_⟩
  · rw [hΔ2, hΔ1, List.append_assoc]
  · intro c hc
    rcases List.mem_append.1 hc with h | h
    · exact hw1 c h
    · rw [hw2 c h, saveCurrentChunk_currentWork]

/-- C7: chunks only accumulate (the output of `processShakespeareText`
is the per-line emissions followed by the end-of-input emissions); every
chunk emitted while processing line `i` carries as its `work` the
nearest recognized work-title over the lines strictly before `i` (or
`UNKNOWN` if none); every chunk emitted by the final flushes carries
the nearest recognized title of the whole input; and an input with no
recognized title line anywhere yields `UNKNOWN` as that value, so all
its chunks are attributed to `UNKNOWN`. -/
theorem claim7_work_attribution (text : List Char) :
    (processShakespeareText text =
        (runLoop (splitLines text)).chunks ++ eofChunks (splitLines text)) ∧
    (∀ i, i < (splitLines text).length →
        (runLoop ((splitLines text).take (i + 1))).chunks =
          (runLoop ((splitLines text).take i)).chunks ++ chunksAt (splitLines text) i) ∧
    (∀ i c, i < (splitLines text).length → c ∈ chunksAt (splitLines text) i →
        c.work = nearestWork ((splitLines text).take i)) ∧
    (∀ c ∈ eofChunks (splitLines text), c.work = nearestWork (splitLines text)) ∧
    ((∀ l ∈ splitLines text, findWork (jsTrim l) = none) →
        nearestWork (splitLines text) = "UNKNOWN".data) := by
  obtain ⟨Δe, hΔe, hwe⟩ := finishP_chunks (runLoop (splitLines text))
  have heof : eofChunks (splitLines text) = Δe := by
    rw [eofChunks, hΔe, List.drop_left]
  refine ⟨?_, ?_, ?_, ?_, ?_⟩
  · rw [processShakespeareText, hΔe, heof]
  · intro i h
    obtain ⟨Δ, hΔ, _⟩ := stepLine_chunks (runLoop ((splitLines text).take i)) (splitLines text)[i]
    have : chunksAt (splitLines text) i = Δ := by
      rw [chunksAt, runLoop_take_succ _ _ h, hΔ, List.drop_left]
    rw [this, runLoop_take_succ _ _ h, hΔ]
  · intro i c h hc
    obtain ⟨Δ, hΔ, hw⟩ := stepLine_chunks (runLoop ((splitLines text).take i)) (splitLines text)[i]
    have hAt : chunksAt (splitLines text) i = Δ := by
      rw [chunksAt, runLoop_take_succ _ _ h, hΔ, List.drop_left]
    rw [hAt] at hc
    rw [hw c hc, runLoop_work]
  · intro c hc
    rw [heof] at hc
    rw [hwe c hc, runLoop_work]
  · intro hnone
    rw [nearestWork]
    have : ∀ L : List (List Char), (∀ l ∈ L, findWork (jsTrim l) = none) →
        ∀ w : List Char, L.foldl (fun w l => (findWork (jsTrim l)).getD w) w = w := by
      intro L
      induction L with
      | nil => intro _ w; rfl
      | cons l rest ih =>
        intro hL w
        rw [List.foldl_cons, hL l (List.mem_cons_self l rest), Option.getD_none]
        exact ih (fun x hx => hL x (List.mem_cons_of_mem l hx)) w
    exact this _ hnone _

/-- A two-line dialogue input with no work title. -/
def noTitleInput : List Char := "HAMLET.\nTo be, or not.".data

/-- The single chunk that input produces at EOF. -/
def noTitleChunk : Chunk := ⟨0, "UNKNOWN".data, some "HAMLET".data, "To be, or not.".data⟩

/-- Witness for C7: the theorem applied to the concrete input
`noTitleInput`, whose EOF-emitted chunk is attributed to `UNKNOWN`. -/
theorem claim7_work_attribution_witness :
    noTitleChunk ∈ eofChunks (splitLines noTitleInput) ∧
    noTitleChunk.work = nearestWork (splitLines noTitleInput) :=
  ⟨by decide, (claim7_work_attribution noTitleInput).2.2.2.1 noTitleChunk (by decide)⟩

/-! ### C4: infrastructure about trimming and the sentence split -/

/-- `dropTrailWs` is Mathlib's `rdropWhile`. -/
theorem dropTrailWs_eq (l : List Char) : dropTrailWs l = List.rdropWhile isWs l := rfl

/-- `jsTrim` through `rdropWhile`. -/
theorem jsTrim_eq (l : List Char) :
    jsTrim l = List.rdropWhile isWs (l.dropWhile isWs) := rfl

/-- A trimmed string is empty iff the string is all whitespace. -/
theorem jsTrim_eq_nil_iff (l : List Char) :
    jsTrim l = [] ↔ ∀ c ∈ l, isWs c = true := by
  rw [jsTrim_eq, List.rdropWhile_eq_nil_iff]
  constructor
  · intro h c hc
    rcases List.mem_append.1 (by rw [List.takeWhile_append_dropWhile] at *; exact hc :
        c ∈ l.takeWhile isWs ++ l.dropWhile isWs) with h1 | h1
    · exact List.mem_takeWhile_imp h1
    · exact h c h1
  · intro h c hc
    exact h c ((List.dropWhile_suffix isWs).mem hc)

/-- The head of a non-empty `dropWhile` result fails the predicate. -/
theorem dropWhile_head_false (p : Char → Bool) :
    ∀ (l : List Char) c r, l.dropWhile p = c :: r → p c = false := by
  intro l
  induction l with
  | nil => intro c r h; simp at h
  | cons a t ih =>
    intro c r h
    by_cases hp : p a = true
    · rw [List.dropWhile_cons_of_pos hp] at h
      exact ih c r h
    · rw [List.dropWhile_cons_of_neg hp] at h
      cases h
      exact Bool.eq_false_iff.2 hp

/-- If a trimmed string is non-empty, its head is not whitespace. -/
theorem jsTrim_head_false (l c : _) (r : List Char) (h : jsTrim l = c :: r) :
    isWs c = false := by
  rw [jsTrim_eq] at h
  have hpre := List.rdropWhile_prefix (p := isWs) (l := l.dropWhile isWs)
  rw [h] at hpre
  obtain ⟨t, ht⟩ := hpre
  exact dropWhile_head_false isWs l c (r ++ t) (by rw [← ht]; simp)

/-- Trimming is idempotent. -/
theorem jsTrim_idem (l : List Char) : jsTrim (jsTrim l) = jsTrim l := by
  cases h : jsTrim l with
  | nil => rfl
  | cons c r =>
    rw [jsTrim_eq, List.dropWhile_cons_of_neg (by simp [jsTrim_head_false l c r h])]
    rw [← h, jsTrim_eq, List.rdropWhile_idempotent]

/-- If the last character is not whitespace, right-trimming is the
identity. -/
theorem rdropWhile_eq_self_of_getLast (l : List Char) (c : Char)
    (hl : l.getLast? = some c) (hc : isWs c = false) :
    List.rdropWhile isWs l = l := by
  rw [List.rdropWhile_eq_self_iff]
  intro hne
  rw [List.getLast?_eq_getLast _ hne] at hl
  simp only [Option.some_inj] at hl
  rw [hl, hc]
  simp

/-- Right-trimming drops nothing from `A` when `B` does not right-trim
to nothing. -/
theorem rdropWhile_append_of_ne_nil (p : Char → Bool) (A B : List Char)
    (h : List.rdropWhile p B ≠ []) :
    List.rdropWhile p (A ++ B) = A ++ List.rdropWhile p B := by
  unfold List.rdropWhile at *
  rw [List.reverse_append, List.dropWhile_append]
  have hB : ¬(B.reverse.dropWhile p).isEmpty = true := by
    intro hb
    exact h (by rw [List.isEmpty_iff.1 hb]; rfl)
  rw [if_neg hB, List.reverse_append, List.reverse_reverse]

/-- Right-trimming a list whose last element satisfies the predicate
strictly shrinks it. -/
theorem rdropWhile_length_lt (p : Char → Bool) (l : List Char) (c : Char)
    (hl : l.getLast? = some c) (hc : p c = true) :
    (List.rdropWhile p l).length < l.length := by
  have hne : l ≠ [] := by
    intro h
    rw [h] at hl
    simp at hl
  have hdec : l = l.dropLast ++ [l.getLast hne] := (List.dropLast_append_getLast hne).symm
  rw [List.getLast?_eq_getLast _ hne] at hl
  simp only [Option.some_inj] at hl
  calc (List.rdropWhile p l).length
      = (List.rdropWhile p (l.dropLast ++ [l.getLast hne])).length := by rw [← hdec]
    _ = (List.rdropWhile p l.dropLast).length := by
        rw [List.rdropWhile_concat_pos _ _ _ (by rw [hl]; exact hc)]
    _ ≤ l.dropLast.length := List.IsPrefix.length_le (List.rdropWhile_prefix p l.dropLast)
    _ < l.length := by
        rw [List.length_dropLast]
        have : 0 < l.length := List.length_pos.2 hne
        omega

/-- No internal split point: no whitespace character immediately
preceded by sentence punctuation. -/
def NoPS (l : List Char) : Prop :=
  l.Chain' (fun a b => ¬(isPunct a = true ∧ isWs b = true))

/-- Trimming preserves `NoPS` (the trim is an infix). -/
theorem noPS_jsTrim (l : List Char) (h : NoPS l) : NoPS (jsTrim l) := by
  apply List.Chain'.infix h
  obtain ⟨u, hu⟩ := List.rdropWhile_prefix (p := isWs) (l.dropWhile isWs)
  refine ⟨l.takeWhile isWs, u, ?_⟩
  rw [jsTrim_eq, List.append_assoc, hu, List.takeWhile_append_dropWhile]

/-- A `NoPS` suffix/prefix extraction helper. -/
theorem noPS_append_left (A B : List Char) (h : NoPS (A ++ B)) : NoPS A :=
  List.Chain'.prefix h ⟨B, rfl⟩

/-- A `NoPS` suffix extraction helper. -/
theorem noPS_append_right (A B : List Char) (h : NoPS (A ++ B)) : NoPS B :=
  List.Chain'.suffix h ⟨A, rfl⟩

/-- In skip mode the splitter consumes the whitespace run and resumes
in normal mode. -/
theorem sentGo_skip : ∀ (r : List Char) (acc : List Char),
    sentGo true acc r = sentGo false acc (r.dropWhile isWs) := by
  intro r
  induction r with
  | nil => intro acc; rfl
  | cons c rest ih =>
    intro acc
    by_cases hc : isWs c = true
    · rw [List.dropWhile_cons_of_pos hc]
      simp only [sentGo, hc, if_true]
      exact ih acc
    · rw [List.dropWhile_cons_of_neg (by simp [hc])]
      have hc' : isWs c = false := Bool.eq_false_iff.2 hc
      simp [sentGo, hc']

/-- Scanning characters with no internal split point just accumulates
them. -/
theorem sentGo_through : ∀ (x acc z : List Char), NoPS (acc.reverse ++ x) →
    sentGo false acc (x ++ z) = sentGo false (x.reverse ++ acc) z := by
  intro x
  induction x with
  | nil => intro acc z _; simp
  | cons c x' ih =>
    intro acc z h
    have hcond : (isWs c && lastIsPunct acc) = false := by
      cases acc with
      | nil => simp [lastIsPunct]
      | cons a acc' =>
        have hrel : ¬(isPunct a = true ∧ isWs c = true) := by
          have : NoPS (acc'.reverse ++ a :: c :: x') := by
            simpa [List.append_assoc] using h
          exact (List.chain'_append_cons_cons.1 this).2.1
        simp only [lastIsPunct]
        by_cases h1 : isWs c = true
        · by_cases h2 : isPunct a = true
          · exact absurd ⟨h2, h1⟩ hrel
          · simp [Bool.eq_false_iff.2 h2]
        · simp [Bool.eq_false_iff.2 h1]
    show sentGo false acc (c :: (x' ++ z)) = _
    simp only [sentGo, hcond, if_false]
    rw [ih (c :: acc) z (by simpa [List.append_assoc] using h)]
    simp [List.append_assoc]

/-- A string with no internal split point is a single sentence. -/
theorem sentSplit_noPS (x : List Char) (h : NoPS x) : sentSplit x = [x] := by
  have := sentGo_through x [] [] (by simpa using h)
  rw [sentSplit, ← List.append_nil x, this]
  simp [sentGo]

/-- Splitting a sentence, a whitespace separator, and a rest that does
not begin with whitespace: the sentence is detached and the rest is
split on its own. -/
theorem sentSplit_append_sep (x w r : List Char) (d : Char)
    (hx : x ≠ []) (hnops : NoPS x) (hlast : x.getLast? = some d)
    (hd : isPunct d = true) (hw : w ≠ []) (hws : ∀ c ∈ w, isWs c = true)
    (hr : r = [] ∨ ∃ c r', r = c :: r' ∧ isWs c = false) :
    sentSplit (x ++ w ++ r) = x :: sentSplit r := by
  have h1 : sentSplit (x ++ (w ++ r)) = sentGo false x.reverse (w ++ r) := by
    rw [sentSplit, sentGo_through x [] (w ++ r) (by simpa using hnops)]
    simp
  rw [List.append_assoc, h1]
  cases w with
  | nil => exact absurd rfl hw
  | cons wc w' =>
    have hrev : x.reverse.head? = some d := by
      rw [List.head?_reverse, hlast]
    cases hxr : x.reverse with
    | nil => simp [hxr] at hrev
    | cons d' tl =>
      rw [hxr] at hrev
      simp only [List.head?_cons, Option.some_inj] at hrev
      have hd' : isPunct d' = true := by rw [hrev]; exact hd
      have hwc : isWs wc = true := hws wc (List.mem_cons_self _ _)
      show sentGo false (d' :: tl) (wc :: (w' ++ r)) = _
      simp only [sentGo, hwc, lastIsPunct, hd', Bool.and_self, if_true]
      rw [sentGo_skip]
      have hdrop : (w' ++ r).dropWhile isWs = r := by
        rw [List.dropWhile_append]
        have hw' : (w'.dropWhile isWs).isEmpty = true := by
          rw [List.isEmpty_iff, List.dropWhile_eq_nil_iff]
          intro c hc
          exact hws c (List.mem_cons_of_mem _ hc)
        rw [if_pos hw']
        rcases hr with rfl | ⟨c, r', rfl, hc⟩
        · rfl
        · rw [List.dropWhile_cons_of_neg (by simp [hc])]
      rw [hdrop, ← hxr, List.reverse_reverse]
      rfl

/-- Structural facts about a list of sentence pieces: each piece has no
internal split point; every piece before the last is non-empty and ends
with sentence punctuation; every piece after the first is empty or
starts with a non-whitespace character. -/
structure GoodL (L : List (List Char)) : Prop where
  nops : ∀ x ∈ L, NoPS x
  mid : ∀ i (h : i < L.length), i + 1 < L.length →
    ∃ c, L[i].getLast? = some c ∧ isPunct c = true
  posHead : ∀ i (h : i < L.length), 1 ≤ i →
    ∀ c, L[i].head? = some c → isWs c = false

/-- A single piece with no internal split point is a good piece list. -/
theorem goodL_singleton (x : List Char) (h : NoPS x) : GoodL [x] := by
  refine ⟨?_, ?_, ?_⟩
  · intro y hy
    rcases List.mem_singleton.1 hy with rfl
    exact h
  · intro i hi hi1
    simp only [List.length_singleton] at hi1
    omega
  · intro i hi h1
    simp only [List.length_singleton] at hi
    omega

/-- Prepending a punctuation-terminated piece to a good piece list whose
head starts with a non-whitespace character (or is empty). -/
theorem goodL_cons (x : List Char) (R : List (List Char)) (d : Char)
    (hx : NoPS x) (hlast : x.getLast? = some d) (hd : isPunct d = true)
    (hR : GoodL R) (hRne : R ≠ [])
    (hRhead : ∀ p, R.head? = some p → ∀ c, p.head? = some c → isWs c = false) :
    GoodL (x :: R) := by
  refine ⟨?_, ?_, ?_⟩
  · intro y hy
    rcases List.mem_cons.1 hy with rfl | hy'
    · exact hx
    · exact hR.nops y hy'
  · intro i hi hi1
    cases i with
    | zero => exact ⟨d, by simpa using hlast, hd⟩
    | succ j =>
      have hj : j < R.length := by simpa using hi
      have hj1 : j + 1 < R.length := by simpa using hi1
      have := hR.mid j hj hj1
      simpa using this
  · intro i hi h1 c hc
    cases i with
    | zero => omega
    | succ j =>
      have hj : j < R.length := by simpa using hi
      cases j with
      | zero =>
        have hc0 : R[0].head? = some c := by simpa using hc
        cases R with
        | nil => exact absurd rfl hRne
        | cons r0 rs =>
          apply hRhead r0 rfl c
          simpa using hc0
      | succ k =>
        exact hR.posHead (k + 1) (by simpa using hi) (by omega) c (by simpa using hc)

/-- Extending the reversed accumulator by one character that creates no
split point preserves `NoPS`. -/
theorem noPS_snoc (acc : List Char) (a : Char) (hacc : NoPS acc.reverse)
    (h : ∀ x, acc.head? = some x → ¬(isPunct x = true ∧ isWs a = true)) :
    NoPS ((a :: acc).reverse) := by
  rw [List.reverse_cons]
  rw [NoPS, List.chain'_append]
  refine ⟨hacc, List.chain'_singleton _, ?_⟩
  intro x hx y hy
  simp only [List.head?_cons, Option.mem_def, Option.some_inj] at hy
  subst hy
  rw [List.getLast?_reverse] at hx
  exact h x hx

/-- The splitter's output pieces are structurally good, and in normal
mode the first piece extends the reversed accumulator, while in skip
mode (with an empty accumulator) the first piece is empty or starts
with a non-whitespace character. -/
theorem sentGo_spec : ∀ (r : List Char),
    (∀ acc, NoPS acc.reverse →
      (sentGo false acc r ≠ [] ∧ GoodL (sentGo false acc r)) ∧
      ∃ u T, sentGo false acc r = (acc.reverse ++ u) :: T) ∧
    (∀ acc, NoPS acc.reverse →
      (sentGo true acc r ≠ [] ∧ GoodL (sentGo true acc r)) ∧
      (acc = [] → ∀ p, (sentGo true acc r).head? = some p →
        ∀ c, p.head? = some c → isWs c = false)) := by
  intro r
  induction r with
  | nil =>
    constructor
    · intro acc hacc
      exact ⟨⟨by simp [sentGo], goodL_singleton _ hacc⟩, [], [], by simp [sentGo]⟩
    · intro acc hacc
      refine ⟨⟨by simp [sentGo], goodL_singleton _ hacc⟩, ?_⟩
      intro hacc0 p hp c hc
      subst hacc0
      simp only [sentGo, List.reverse_nil, List.head?_cons, Option.some_inj] at hp
      rw [← hp] at hc
      simp at hc
  | cons a rest ih =>
    obtain ⟨ihF, ihT⟩ := ih
    constructor
    · intro acc hacc
      by_cases htr : (isWs a && lastIsPunct acc) = true
      · obtain ⟨⟨hne, hgood⟩, hhead⟩ := ihT [] (by simp [NoPS])
        have haccne : acc ≠ [] := by
          intro hnil
          rw [hnil] at htr
          simp [lastIsPunct] at htr
        obtain ⟨pc, tl, rfl⟩ : ∃ pc tl, acc = pc :: tl := by
          cases acc with
          | nil => exact absurd rfl haccne
          | cons h t => exact ⟨h, t, rfl⟩
        have hpcp : isPunct pc = true := by
          rcases Bool.and_eq_true_iff.1 htr with ⟨_, h2⟩
          simpa [lastIsPunct] using h2
        have hstep : sentGo false (pc :: tl) (a :: rest) =
            (pc :: tl).reverse :: sentGo true [] rest := by
          simp [sentGo, htr]
        rw [hstep]
        refine ⟨⟨by simp, ?_⟩, ?_⟩
        · refine goodL_cons _ _ pc hacc ?_ hpcp hgood hne (hhead rfl)
          rw [List.getLast?_reverse]
          rfl
        · exact ⟨[], sentGo true [] rest, by simp⟩
      · have hnps : NoPS ((a :: acc).reverse) := by
          apply noPS_snoc acc a hacc
          intro x hx ⟨h1, h2⟩
          apply htr
          rw [h2, Bool.true_and]
          cases acc with
          | nil => simp at hx
          | cons b t =>
            simp only [List.head?_cons, Option.some_inj] at hx
            subst hx
            simpa [lastIsPunct] using h1
        obtain ⟨⟨hne, hgood⟩, u, T, hform⟩ := ihF (a :: acc) hnps
        have hstep : sentGo false acc (a :: rest) = sentGo false (a :: acc) rest := by
          simp [sentGo, htr]
        rw [hstep]
        refine ⟨⟨hne, hgood⟩, a :: u, T, ?_⟩
        rw [hform]
        simp
    · intro acc hacc
      by_cases hws : isWs a = true
      · have hstep : sentGo true acc (a :: rest) = sentGo true acc rest := by
          simp [sentGo, hws]
        rw [hstep]
        exact ihT acc hacc
      · have hnps : NoPS ((a :: acc).reverse) := by
          apply noPS_snoc acc a hacc
          intro x hx ⟨h1, h2⟩
          exact hws h2
        obtain ⟨⟨hne, hgood⟩, u, T, hform⟩ := ihF (a :: acc) hnps
        have hstep : sentGo true acc (a :: rest) = sentGo false (a :: acc) rest := by
          simp [sentGo, hws]
        rw [hstep]
        refine ⟨⟨hne, hgood⟩, ?_⟩
        intro hacc0 p hp c hc
        subst hacc0
        rw [hform] at hp
        simp only [List.reverse_cons, List.reverse_nil, List.nil_append,
          List.head?_cons, Option.some_inj] at hp
        rw [← hp] at hc
        simp only [List.cons_append, List.head?_cons, Option.some_inj] at hc
        rw [← hc]
        exact Bool.eq_false_iff.2 hws

/-- The pieces produced by `sentSplit` are structurally good. -/
theorem sentSplit_good (t : List Char) : GoodL (sentSplit t) :=
  ((sentGo_spec t).1 [] (by simp [NoPS])).1.2

/-- Join a sentence group with one trailing space after each sentence
(the exact shape of the splitter's accumulator string). -/
def joinSp : List (List Char) → List Char
  | [] => []
  | s :: rest => s ++ ' ' :: joinSp rest

/-- Concatenation of a list of lists. -/
def concatAll : List (List (List Char)) → List (List Char)
  | [] => []
  | g :: rest => g ++ concatAll rest

/-- Normalized sentence sequence: trim each sentence and drop the empty
ones ("ignoring inter-sentence spacing"). -/
def normSents (L : List (List Char)) : List (List Char) :=
  (L.map jsTrim).filter (fun x => !x.isEmpty)

/-- The sentence groups formed by the splitter loop: the greedy grouping
of the sentence stream, mirroring `splitGo` at the level of sentence
lists. -/
def splitGroups : List (List Char) → List (List Char) → List (List (List Char))
  | [], g => if (jsTrim (joinSp g)).isEmpty then [] else [g]
  | s :: rest, g =>
      if 800 < (joinSp g).length + s.length && 0 < (joinSp g).length then
        g :: splitGroups rest [s]
      else splitGroups rest (g ++ [s])

/-- `joinSp` over a snoc. -/
theorem joinSp_append (g : List (List Char)) (s : List Char) :
    joinSp (g ++ [s]) = joinSp g ++ (s ++ [' ']) := by
  induction g with
  | nil => simp [joinSp]
  | cons a t ih => simp [joinSp, ih]

/-- `joinSp` is empty only for the empty group. -/
theorem joinSp_eq_nil (g : List (List Char)) : joinSp g = [] ↔ g = [] := by
  cases g with
  | nil => simp [joinSp]
  | cons a t => simp [joinSp]

/-- A non-empty group's join ends with the added space. -/
theorem joinSp_getLast (g : List (List Char)) (hg : g ≠ []) :
    (joinSp g).getLast? = some ' ' := by
  induction g with
  | nil => exact absurd rfl hg
  | cons a t ih =>
    show (a ++ ' ' :: joinSp t).getLast? = some ' '
    cases t with
    | nil =>
      show (a ++ [' ']).getLast? = some ' '
      simp
    | cons b t' =>
      rw [List.getLast?_append_of_ne_nil _ (by simp)]
      have h1 : ' ' :: joinSp (b :: t') = [' '] ++ joinSp (b :: t') := rfl
      rw [h1, List.getLast?_append_of_ne_nil _ (by
        rw [Ne, joinSp_eq_nil]
        simp)]
      exact ih (by simp)

/-- Characters of group members are characters of the join. -/
theorem mem_joinSp_of_mem (g : List (List Char)) (x : List Char) (c : Char)
    (hx : x ∈ g) (hc : c ∈ x) : c ∈ joinSp g := by
  induction g with
  | nil => simp at hx
  | cons a t ih =>
    show c ∈ a ++ ' ' :: joinSp t
    rcases List.mem_cons.1 hx with rfl | hx'
    · exact List.mem_append_left _ hc
    · exact List.mem_append_right _ (List.mem_cons_of_mem _ (ih hx'))

/-- `normSents` distributes over append. -/
theorem normSents_append (A B : List (List Char)) :
    normSents (A ++ B) = normSents A ++ normSents B := by
  simp [normSents]

/-- `normSents` of a cons. -/
theorem normSents_cons (a : List Char) (L : List (List Char)) :
    normSents (a :: L) =
      if (jsTrim a).isEmpty then normSents L else jsTrim a :: normSents L := by
  simp only [normSents, List.map_cons, List.filter_cons]
  by_cases h : (jsTrim a).isEmpty
  · simp [h]
  · simp [h]

/-- A group whose join trims to nothing normalizes to nothing. -/
theorem normSents_nil_of_trim_nil (g : List (List Char))
    (h : jsTrim (joinSp g) = []) : normSents g = [] := by
  have hall : ∀ c ∈ joinSp g, isWs c = true := (jsTrim_eq_nil_iff _).1 h
  clear h
  induction g with
  | nil => rfl
  | cons a t ih =>
    have hta : ∀ c ∈ joinSp t, isWs c = true := by
      intro c hc
      apply hall
      show c ∈ a ++ ' ' :: joinSp t
      exact List.mem_append_right _ (List.mem_cons_of_mem _ hc)
    have hae : (jsTrim a).isEmpty = true := by
      rw [List.isEmpty_iff, jsTrim_eq_nil_iff]
      intro c hc
      refine hall c ?_
      show c ∈ a ++ ' ' :: joinSp t
      exact List.mem_append_left _ hc
    rw [normSents_cons, if_pos hae, ih hta]

/-- The splitter loop's part texts are the trims of the joins of the
sentence groups. -/
theorem splitGo_texts (base : Chunk) : ∀ (sents : List (List Char))
    (acc : List Chunk) (g : List (List Char)) (pi : Nat),
    (splitGo base sents acc (joinSp g) pi).map Chunk.text =
      acc.map Chunk.text ++ (splitGroups sents g).map (fun G => jsTrim (joinSp G)) := by
  intro sents
  induction sents with
  | nil =>
    intro acc g pi
    simp only [splitGo, splitGroups]
    by_cases h : (jsTrim (joinSp g)).isEmpty
    · rw [if_pos h, if_pos h]
      simp
    · rw [if_neg h, if_neg h]
      simp
  | cons s rest ih =>
    intro acc g pi
    simp only [splitGo, splitGroups]
    by_cases h : (800 < (joinSp g).length + s.length && 0 < (joinSp g).length) = true
    · rw [if_pos h, if_pos h]
      have hs : s ++ [' '] = joinSp [s] := by simp [joinSp]
      rw [hs, ih]
      simp
    · rw [if_neg h, if_neg h]
      have hs : joinSp g ++ s ++ [' '] = joinSp (g ++ [s]) := by
        rw [joinSp_append, List.append_assoc]
      rw [hs, ih]

/-- The groups formed by the loop partition the sentence stream up to
normalization (a trailing all-whitespace group may be dropped, but it
normalizes to nothing). -/
theorem splitGroups_norm : ∀ (sents g : List (List Char)),
    normSents (concatAll (splitGroups sents g)) = normSents (g ++ sents) := by
  intro sents
  induction sents with
  | nil =>
    intro g
    simp only [splitGroups]
    by_cases h : (jsTrim (joinSp g)).isEmpty
    · rw [if_pos h]
      show normSents [] = normSents (g ++ [])
      rw [List.append_nil, normSents_nil_of_trim_nil g (List.isEmpty_iff.1 h)]
      rfl
    · rw [if_neg h]
      show normSents (g ++ []) = normSents (g ++ [])
      rfl
  | cons s rest ih =>
    intro g
    simp only [splitGroups]
    by_cases h : (800 < (joinSp g).length + s.length && 0 < (joinSp g).length) = true
    · rw [if_pos h]
      show normSents (g ++ concatAll (splitGroups rest [s])) = _
      rw [normSents_append, ih [s]]
      rw [← normSents_append]
      rfl
    · rw [if_neg h]
      rw [ih (g ++ [s])]
      simp

/-- Left part of a good list is good. -/
theorem goodL_append_left (A B : List (List Char)) (h : GoodL (A ++ B)) :
    GoodL A := by
  refine ⟨?_, ?_, ?_⟩
  · intro x hx
    exact h.nops x (List.mem_append_left _ hx)
  · intro i hi hi1
    have hlt : i < (A ++ B).length := by
      simp only [List.length_append]
      omega
    have hlt1 : i + 1 < (A ++ B).length := by
      simp only [List.length_append]
      omega
    have := h.mid i hlt hlt1
    rwa [List.getElem_append_left hi] at this
  · intro i hi h1 c hc
    have hlt : i < (A ++ B).length := by
      simp only [List.length_append]
      omega
    refine h.posHead i hlt h1 c ?_
    rwa [List.getElem_append_left hi]

/-- Right part of a good list is good. -/
theorem goodL_append_right (A B : List (List Char)) (h : GoodL (A ++ B)) :
    GoodL B := by
  have hidx : ∀ i (hi : i < B.length) (hj : A.length + i < (A ++ B).length),
      (A ++ B)[A.length + i] = B[i] := by
    intro i hi hj
    rw [List.getElem_append_right (by omega)]
    congr 1
    omega
  refine ⟨?_, ?_, ?_⟩
  · intro x hx
    exact h.nops x (List.mem_append_right _ hx)
  · intro i hi hi1
    have := h.mid (A.length + i) (by simp only [List.length_append]; omega)
      (by simp only [List.length_append]; omega)
    rwa [hidx i hi (by simp only [List.length_append]; omega)] at this
  · intro i hi h1 c hc
    refine h.posHead (A.length + i) (by simp only [List.length_append]; omega)
      (by omega) c ?_
    rwa [hidx i hi (by simp only [List.length_append]; omega)]

/-- Size invariant of the groups: the join is at most 801 characters or
the group is a single sentence. -/
def SizeOK (g : List (List Char)) : Prop :=
  (joinSp g).length ≤ 801 ∨ ∃ s, g = [s]

/-- Every group emitted by `splitGroups` is good, size-bounded and
non-empty. -/
theorem splitGroups_mem : ∀ (sents g : List (List Char)),
    GoodL (g ++ sents) → SizeOK g →
    ∀ G ∈ splitGroups sents g, GoodL G ∧ SizeOK G ∧ G ≠ [] := by
  intro sents
  induction sents with
  | nil =>
    intro g hgood hsize G hG
    simp only [splitGroups] at hG
    by_cases h : (jsTrim (joinSp g)).isEmpty
    · rw [if_pos h] at hG
      simp at hG
    · rw [if_neg h] at hG
      rcases List.mem_singleton.1 hG with rfl
      refine ⟨by rwa [List.append_nil] at hgood, hsize, ?_⟩
      intro hnil
      subst hnil
      exact h (by rfl)
  | cons s rest ih =>
    intro g hgood hsize G hG
    simp only [splitGroups] at hG
    by_cases h : (800 < (joinSp g).length + s.length && 0 < (joinSp g).length) = true
    · rw [if_pos h] at hG
      rcases List.mem_cons.1 hG with rfl | hG'
      · refine ⟨goodL_append_left _ _ hgood, hsize, ?_⟩
        rcases Bool.and_eq_true_iff.1 h with ⟨_, h2⟩
        intro hnil
        subst hnil
        simp [joinSp] at h2
      · refine ih [s] ?_ (Or.inr ⟨s, rfl⟩) G hG'
        have : g ++ s :: rest = g ++ ([s] ++ rest) := by simp
        rw [this] at hgood
        exact goodL_append_right _ _ hgood
    · rw [if_neg h] at hG
      refine ih (g ++ [s]) ?_ ?_ G hG
      · have heq : g ++ [s] ++ rest = g ++ s :: rest := by simp
        rw [heq]
        exact hgood

      · rcases hsize with hle | ⟨t, rfl⟩
        · by_cases hg0 : (joinSp g).length = 0
          · have : g = [] := (joinSp_eq_nil g).1 (List.length_eq_zero.1 hg0)
            subst this
            exact Or.inr ⟨s, rfl⟩
          · left
            rw [joinSp_append, List.length_append, List.length_append,
              List.length_singleton]
            have hnot : ¬(800 < (joinSp g).length + s.length ∧ 0 < (joinSp g).length) := by
              intro ⟨h1, h2⟩
              exact h (by simp [h1, h2])
            omega
        · by_cases ht0 : (joinSp [t]).length = 0
          · simp [joinSp] at ht0
          · left
            rw [joinSp_append, List.length_append, List.length_append,
              List.length_singleton]
            have hnot : ¬(800 < (joinSp [t]).length + s.length ∧ 0 < (joinSp [t]).length) := by
              intro ⟨h1, h2⟩
              exact h (by simp [h1, h2])
            omega

/-- Sentence punctuation is not whitespace. -/
theorem punct_not_ws (c : Char) (h : isPunct c = true) : isWs c = false := by
  have : (c = '.' ∨ c = '!') ∨ c = '?' := by simpa [isPunct] using h
  rcases this with (rfl | rfl) | rfl <;> decide

/-- Trimming ignores one trailing space. -/
theorem jsTrim_append_sp (x : List Char) : jsTrim (x ++ [' ']) = jsTrim x := by
  rw [jsTrim_eq, jsTrim_eq, List.dropWhile_append]
  by_cases h : (x.dropWhile isWs).isEmpty = true
  · rw [if_pos h, List.isEmpty_iff.1 h]
    rfl
  · rw [if_neg h, List.rdropWhile_concat_pos _ _ _ (by decide)]

/-- A non-empty prefix has the same head. -/
theorem head?_of_prefix (p l : List Char) (h : p <+: l) (hp : p ≠ []) :
    l.head? = p.head? := by
  obtain ⟨t, ht⟩ := h
  rw [← ht]
  cases p with
  | nil => exact absurd rfl hp
  | cons c r => rfl

/-- Right-trimming keeps something when some element survives. -/
theorem rdropWhile_ne_nil_of_mem (p : Char → Bool) (l : List Char) (c : Char)
    (hc : c ∈ l) (hp : p c = false) : List.rdropWhile p l ≠ [] := by
  rw [Ne, List.rdropWhile_eq_nil_iff]
  intro hfa
  rw [hfa c hc] at hp
  simp at hp

/-- Stripping leading whitespace from a piece whose last character is
not whitespace: the result is non-empty, keeps the last character, and
is exactly the piece's trim. -/
theorem stripLead_spec (x : List Char) (d : Char)
    (hxlast : x.getLast? = some d) (hdnw : isWs d = false) :
    x.dropWhile isWs ≠ [] ∧ (x.dropWhile isWs).getLast? = some d ∧
    jsTrim x = x.dropWhile isWs := by
  have hxne : x ≠ [] := by
    intro h
    rw [h] at hxlast
    simp at hxlast
  have hdm : d ∈ x := by
    rw [List.getLast?_eq_getLast _ hxne] at hxlast
    simp only [Option.some_inj] at hxlast
    rw [← hxlast]
    exact List.getLast_mem hxne
  have ha : x.dropWhile isWs ≠ [] := by
    rw [Ne, List.dropWhile_eq_nil_iff]
    intro hfa
    rw [hfa d hdm] at hdnw
    simp at hdnw
  have hb : (x.dropWhile isWs).getLast? = some d := by
    obtain ⟨u, hu⟩ := List.dropWhile_suffix (p := isWs) (l := x)
    have h1 : (u ++ x.dropWhile isWs).getLast? = (x.dropWhile isWs).getLast? :=
      List.getLast?_append_of_ne_nil _ ha
    rw [← h1, hu]
    exact hxlast
  refine ⟨ha, hb, ?_⟩
  rw [jsTrim_eq]
  exact rdropWhile_eq_self_of_getLast _ d hb hdnw

/-- Re-splitting a part's text recovers the part's sentence group up to
normalization: the core correctness of the greedy splitter. -/
theorem rejoin : ∀ (G : List (List Char)), GoodL G →
    normSents (sentSplit (jsTrim (joinSp G))) = normSents G := by
  intro G
  induction G with
  | nil =>
    intro _
    rfl
  | cons x G' ih =>
    intro hG
    have hx : NoPS x := hG.nops x (List.mem_cons_self _ _)
    cases G' with
    | nil =>
      have h1 : joinSp [x] = x ++ [' '] := by simp [joinSp]
      rw [h1, jsTrim_append_sp]
      by_cases h3 : jsTrim x = []
      · rw [h3]
        show normSents (sentSplit []) = normSents [x]
        have hL : normSents (sentSplit []) = [] := rfl
        rw [hL, normSents_cons, if_pos (by rw [List.isEmpty_iff]; exact h3)]
        rfl
      · rw [sentSplit_noPS (jsTrim x) (noPS_jsTrim x hx), normSents_cons, normSents_cons]
        rw [jsTrim_idem]
    | cons y G'' =>
      obtain ⟨d, hxlast, hd⟩ : ∃ c, x.getLast? = some c ∧ isPunct c = true := by
        have := hG.mid 0 (by simp) (by simp)
        simpa using this
      have hdnw : isWs d = false := punct_not_ws d hd
      obtain ⟨hx0ne, hx0last, hx0trim⟩ := stripLead_spec x d hxlast hdnw
      have hx0nops : NoPS (x.dropWhile isWs) := by
        rw [← hx0trim]
        exact noPS_jsTrim x hx
      have hx0trim2 : jsTrim (x.dropWhile isWs) = x.dropWhile isWs := by
        rw [← hx0trim, jsTrim_idem]
      have hGood' : GoodL (y :: G'') := by
        have : [x] ++ (y :: G'') = x :: y :: G'' := rfl
        exact goodL_append_right [x] (y :: G'') (by rw [this]; exact hG)
      by_cases hy : y = []
      · subst hy
        have hG''nil : G'' = [] := by
          cases G'' with
          | nil => rfl
          | cons z zs =>
            obtain ⟨c, hc, _⟩ := hG.mid 1 (by simp) (by simp)
            simp at hc
        subst hG''nil
        show normSents (sentSplit (jsTrim (joinSp [x, []]))) = normSents [x, []]
        have hJ : joinSp [x, []] = (x ++ [' ']) ++ [' '] := by
          simp [joinSp]
        rw [hJ, jsTrim_append_sp, jsTrim_append_sp, hx0trim]
        rw [sentSplit_noPS _ hx0nops]
        rw [normSents_cons, if_neg (by rw [hx0trim2]; simpa using hx0ne)]
        rw [normSents_cons, if_neg (by rw [hx0trim]; simpa using hx0ne)]
        rw [hx0trim2, hx0trim]
        rfl
      · obtain ⟨cy, y', rfl⟩ : ∃ cy y', y = cy :: y' := by
          cases y with
          | nil => exact absurd rfl hy
          | cons cy y' => exact ⟨cy, y', rfl⟩
        have hcynw : isWs cy = false := by
          refine hG.posHead 1 (by simp) (by omega) cy ?_
          simp
        have hJ : joinSp ((cy :: y') :: G'') = cy :: (y' ++ ' ' :: joinSp G'') := by
          simp [joinSp]
        have hE := rdropWhile_ne_nil_of_mem isWs (joinSp ((cy :: y') :: G'')) cy
          (by rw [hJ]; exact List.mem_cons_self _ _) hcynw
        have hdropJ : (joinSp ((cy :: y') :: G'')).dropWhile isWs =
            joinSp ((cy :: y') :: G'') := by
          rw [hJ, List.dropWhile_cons_of_neg (by simp [hcynw])]
        have hEtrim : jsTrim (joinSp ((cy :: y') :: G'')) =
            List.rdropWhile isWs (joinSp ((cy :: y') :: G'')) := by
          rw [jsTrim_eq, hdropJ]
        have hEhead : (List.rdropWhile isWs (joinSp ((cy :: y') :: G''))).head? = some cy := by
          have h1 : (joinSp ((cy :: y') :: G'')).head? =
              (List.rdropWhile isWs (joinSp ((cy :: y') :: G''))).head? :=
            head?_of_prefix _ _ (List.rdropWhile_prefix isWs _) hE
          rw [← h1, hJ]
          rfl
        obtain ⟨E', hE'⟩ : ∃ E', List.rdropWhile isWs (joinSp ((cy :: y') :: G'')) = cy :: E' := by
          cases hEc : List.rdropWhile isWs (joinSp ((cy :: y') :: G'')) with
          | nil => exact absurd hEc hE
          | cons a b =>
            rw [hEc] at hEhead
            simp only [List.head?_cons, Option.some_inj] at hEhead
            subst hEhead
            exact ⟨b, rfl⟩
        have hmain : jsTrim (joinSp (x :: (cy :: y') :: G'')) =
            x.dropWhile isWs ++ [' '] ++ (cy :: E') := by
          show jsTrim (x ++ ' ' :: joinSp ((cy :: y') :: G'')) = _
          rw [jsTrim_eq, List.dropWhile_append, if_neg (by simpa using hx0ne)]
          have hsp : x.dropWhile isWs ++ ' ' :: joinSp ((cy :: y') :: G'') =
              x.dropWhile isWs ++ ([' '] ++ joinSp ((cy :: y') :: G'')) := rfl
          have hne2 : List.rdropWhile isWs ([' '] ++ joinSp ((cy :: y') :: G'')) ≠ [] :=
            rdropWhile_ne_nil_of_mem isWs _ cy (by rw [hJ]; simp) hcynw
          rw [hsp, rdropWhile_append_of_ne_nil isWs _ _ hne2,
            rdropWhile_append_of_ne_nil isWs [' '] _ hE, hE']
          simp
        rw [hmain]
        rw [sentSplit_append_sep (x.dropWhile isWs) [' '] (cy :: E') d hx0ne hx0nops
          hx0last hd (by simp) (by intro c hc; simp at hc; rw [hc]; decide)
          (Or.inr ⟨cy, E', rfl, hcynw⟩)]
        rw [normSents_cons, if_neg (by rw [hx0trim2]; simpa using hx0ne), hx0trim2]
        have hIH := ih hGood'
        rw [hEtrim, hE'] at hIH
        rw [hIH]
        rw [normSents_cons x ((cy :: y') :: G''),
          if_neg (by rw [hx0trim]; simpa using hx0ne), hx0trim]

/-- A sealed part whose group join is at most 801 characters trims to
at most 800 characters (the join always ends with the added space). -/
theorem part_length_le (G : List (List Char)) (hGne : G ≠ [])
    (hle : (joinSp G).length ≤ 801) : (jsTrim (joinSp G)).length ≤ 800 := by
  have hlast : (joinSp G).getLast? = some ' ' := joinSp_getLast G hGne
  cases hdw : (joinSp G).dropWhile isWs with
  | nil =>
    have hnil : jsTrim (joinSp G) = [] := by
      rw [jsTrim_eq, hdw]
      rfl
    rw [hnil]
    simp
  | cons c r =>
    have hne : (joinSp G).dropWhile isWs ≠ [] := by
      rw [hdw]
      simp
    have hsuf : ((joinSp G).dropWhile isWs).getLast? = some ' ' := by
      obtain ⟨u, hu⟩ := List.dropWhile_suffix (p := isWs) (l := joinSp G)
      have h1 : (u ++ (joinSp G).dropWhile isWs).getLast? =
          ((joinSp G).dropWhile isWs).getLast? :=
        List.getLast?_append_of_ne_nil _ hne
      rw [← h1, hu]
      exact hlast
    have hlt := rdropWhile_length_lt isWs ((joinSp G).dropWhile isWs) ' ' hsuf (by decide)
    have hlen : ((joinSp G).dropWhile isWs).length ≤ (joinSp G).length :=
      List.IsSuffix.length_le (List.dropWhile_suffix isWs)
    rw [jsTrim_eq]
    omega

/-- Rewriting each group under `normSents ∘ concatAll` by a
normalization-preserving function. -/
theorem normSents_concatAll_congr : ∀ (L : List (List (List Char)))
    (f : List (List Char) → List (List Char)),
    (∀ G ∈ L, normSents (f G) = normSents G) →
    normSents (concatAll (L.map f)) = normSents (concatAll L) := by
  intro L f
  induction L with
  | nil => intro _; rfl
  | cons g rest ih =>
    intro h
    show normSents (f g ++ concatAll (rest.map f)) = normSents (g ++ concatAll rest)
    rw [normSents_append, normSents_append, h g (List.mem_cons_self _ _),
      ih (fun G hG => h G (List.mem_cons_of_mem _ hG))]

/-! ### C4, assembled -/

/-- C4: for every chunk whose text exceeds 800 characters,
`splitLargeChunk` returns parts whose text each has length at most 800,
except that a part may be a single sentence (kept whole, possibly longer
than 800); and the concatenation of the parts' sentence sequences, after
trimming each sentence and discarding empty ones (ignoring
inter-sentence spacing), equals the equally-normalized sentence sequence
of the original text, sentences being delimited by whitespace following
`.`, `!` or `?`. -/
theorem claim4_split_correctness (c : Chunk) (h : 800 < c.text.length) :
    (∀ p ∈ splitLargeChunk c, p.text.length ≤ 800 ∨ sentSplit p.text = [p.text]) ∧
    normSents (concatAll ((splitLargeChunk c).map (fun p => sentSplit p.text))) =
      normSents (sentSplit c.text) := by
  have hrw : splitLargeChunk c = splitGo c (sentSplit c.text) [] [] 1 := by
    unfold splitLargeChunk
    rw [if_neg (by omega)]
  have htexts : (splitLargeChunk c).map Chunk.text =
      (splitGroups (sentSplit c.text) []).map (fun G => jsTrim (joinSp G)) := by
    rw [hrw]
    have h0 : ([] : List Char) = joinSp [] := rfl
    have hgo := splitGo_texts c (sentSplit c.text) [] [] 1
    rw [← h0] at hgo
    simpa using hgo
  have hgoodS : GoodL (sentSplit c.text) := sentSplit_good c.text
  have hmemG : ∀ G ∈ splitGroups (sentSplit c.text) [], GoodL G ∧ SizeOK G ∧ G ≠ [] := by
    apply splitGroups_mem
    · simpa using hgoodS
    · left
      simp [joinSp]
  constructor
  · intro p hp
    have hpt : p.text ∈ (splitLargeChunk c).map Chunk.text := List.mem_map_of_mem _ hp
    rw [htexts] at hpt
    obtain ⟨G, hG, hteq⟩ := List.mem_map.1 hpt
    obtain ⟨hGood, hSize, hGne⟩ := hmemG G hG
    rcases hSize with hle | ⟨s, rfl⟩
    · left
      rw [← hteq]
      exact part_length_le G hGne hle
    · right
      have hts : jsTrim (joinSp [s]) = jsTrim s := by
        have h1 : joinSp [s] = s ++ [' '] := by simp [joinSp]
        rw [h1, jsTrim_append_sp]
      have hnops : NoPS s := hGood.nops s (List.mem_singleton.2 rfl)
      rw [← hteq, hts]
      exact sentSplit_noPS _ (noPS_jsTrim s hnops)
  · have hmap : (splitLargeChunk c).map (fun p => sentSplit p.text) =
        ((splitLargeChunk c).map Chunk.text).map sentSplit := by
      rw [List.map_map]
      rfl
    rw [hmap, htexts, List.map_map]
    have hfun : (sentSplit ∘ fun G => jsTrim (joinSp G)) =
        fun G => sentSplit (jsTrim (joinSp G)) := rfl
    rw [hfun]
    rw [normSents_concatAll_congr (splitGroups (sentSplit c.text) [])
      (fun G => sentSplit (jsTrim (joinSp G)))
      (fun G hG => rejoin G (hmemG G hG).1)]
    rw [splitGroups_norm]
    rfl

set_option maxRecDepth 100000 in
/-- Witness for C4: the theorem applied to the concrete oversized chunk
`bigChunk`. -/
theorem claim4_split_correctness_witness :
    800 < bigChunk.text.length ∧
    ((∀ p ∈ splitLargeChunk bigChunk, p.text.length ≤ 800 ∨ sentSplit p.text = [p.text]) ∧
     normSents (concatAll ((splitLargeChunk bigChunk).map (fun p => sentSplit p.text))) =
       normSents (sentSplit bigChunk.text)) :=
  ⟨by decide, claim4_split_correctness bigChunk (by decide)⟩

end BardRag
